import Mathlib

/-!
# Verification of the terabyebye POP3 cleanup engine

Shallow embedding of the core of `src/yahoo/terabyebye.py`:

* `binary_search_date` — date-boundary binary search (mailbox modelled as a
  map from 1-based sequence position to an optional parsed date, dates as
  integers; `none` models an unparseable `Date:` header);
* `delete_messages_robust` — the batch delete engine, with the network
  modelled as an oracle saying which connect/stat/dele/commit operations
  succeed at each loop iteration, and a fuel bound on the number of loop
  iterations (the Python `while True` loop need not terminate for
  adversarial oracles);
* `backup_emails_to_zip` — the backup (and optional interleaved delete)
  pipeline, with the zip filesystem modelled as an append-only event log.
-/

namespace TeraByeBye

/-! ## Boundary search (`binary_search_date`, lines 109-174) -/

/-- A mailbox for the boundary search: sequence position (1-based) to the
parsed `Date:` header, `none` when the date is missing/unparseable.
Dates are modelled as integers (any linearly ordered stamp). -/
abbrev Mailbox := Nat → Option Int

/-- The fixed neighbour offsets probed when a candidate's date is
unparseable (line 140: `for offset in [1, -1, 2, -2, 5, -5]`). -/
def neighborOffsets : List Int := [1, -1, 2, -2, 5, -5]

/-- The neighbour probe of `binary_search_date` (lines 139-147): walk the
offset list, test `mid + offset` when it lies in `1..num_messages`, and
return the first probed position whose date parses, with its date. -/
def probeNeighbors (mb : Mailbox) (numMessages mid : Nat) :
    List Int → Option (Nat × Int)
  | [] => none
  | o :: rest =>
    if 1 ≤ (mid : Int) + o ∧ (mid : Int) + o ≤ (numMessages : Int) then
      match mb ((mid : Int) + o).toNat with
      | some d => some (((mid : Int) + o).toNat, d)
      | none => probeNeighbors mb numMessages mid rest
    else
      probeNeighbors mb numMessages mid rest

/-- One comparison step of the search (lines 154-171): given the adopted
candidate `mid` with parsed date `d`, produce the new
`(left, right, result)` triple. -/
def compareStep (target : Int) (findFirstGte : Bool)
    (left right result mid : Nat) (d : Int) : Nat × Nat × Nat :=
  if findFirstGte then
    if target ≤ d then (left, mid - 1, mid) else (mid + 1, right, result)
  else
    if d < target then (mid + 1, right, mid) else (left, mid - 1, result)

/-- The `while left <= right` loop of `binary_search_date` (lines 131-171),
with an explicit fuel bound on the number of iterations; `none` means the
fuel ran out (for all-parseable mailboxes `numMessages + 1` iterations
always suffice, see `bsearchGo_gte_correct`). -/
def bsearchGo (mb : Mailbox) (numMessages : Nat) (target : Int)
    (findFirstGte : Bool) : Nat → Nat → Nat → Nat → Option Nat
  | 0, _, _, _ => none
  | fuel + 1, left, right, result =>
    if left ≤ right then
      let mid := (left + right) / 2
      match mb mid with
      | some d =>
        let s := compareStep target findFirstGte left right result mid d
        bsearchGo mb numMessages target findFirstGte fuel s.1 s.2.1 s.2.2
      | none =>
        match probeNeighbors mb numMessages mid neighborOffsets with
        | some (m, d) =>
          let s := compareStep target findFirstGte left right result m d
          bsearchGo mb numMessages target findFirstGte fuel s.1 s.2.1 s.2.2
        | none =>
          bsearchGo mb numMessages target findFirstGte fuel (mid + 10) right result
    else
      some result

/-- `binary_search_date` (lines 109-174): binary search for the first
position with date ≥ target (`findFirstGte = true`) or the last position
with date < target (`findFirstGte = false`); initial bounds `left = 1`,
`right = num_messages`, sentinel result `num_messages + 1` resp. `0`. -/
def binary_search_date (mb : Mailbox) (numMessages : Nat) (target : Int)
    (findFirstGte : Bool) : Option Nat :=
  bsearchGo mb numMessages target findFirstGte (numMessages + 1) 1 numMessages
    (if findFirstGte then numMessages + 1 else 0)

example :
    binary_search_date (fun p => if 1 ≤ p ∧ p ≤ 4 then some (p : Int) else none)
      4 3 true = some 3 := by decide

example :
    binary_search_date (fun p => if 1 ≤ p ∧ p ≤ 4 then some (p : Int) else none)
      4 3 false = some 2 := by decide

example :
    binary_search_date (fun p => if 1 ≤ p ∧ p ≤ 4 then some (p : Int) else none)
      4 9 true = some 5 := by decide

example :
    binary_search_date (fun p => if 1 ≤ p ∧ p ≤ 4 then some (p : Int) else none)
      4 (-3) false = some 0 := by decide

/-- Loop invariant proof for the `find_first_gte = True` mode: on a mailbox
whose parsed dates are non-decreasing in position and all parseable, the
loop maintains `result = right + 1`, everything left of `left` is below the
target and everything right of `right` is at/above it. -/
theorem bsearchGo_gte_correct (mb : Mailbox) (N : Nat) (target : Int)
    (sorted : ∀ i j di dj, 1 ≤ i → i ≤ j → j ≤ N →
      mb i = some di → mb j = some dj → di ≤ dj)
    (parse : ∀ p, 1 ≤ p → p ≤ N → ∃ d, mb p = some d) :
    ∀ fuel left right result, 1 ≤ left → right ≤ N → result = right + 1 →
      (∀ p d, 1 ≤ p → p < left → mb p = some d → d < target) →
      (∀ p d, right < p → p ≤ N → mb p = some d → target ≤ d) →
      right + 1 - left < fuel →
      ∃ R, bsearchGo mb N target true fuel left right result = some R ∧
        1 ≤ R ∧ R ≤ N + 1 ∧
        (∀ p d, 1 ≤ p → p < R → mb p = some d → d < target) ∧
        (R ≤ N → ∀ d, mb R = some d → target ≤ d) := by
  intro fuel
  induction fuel with
  | zero => intro left right result _ _ _ _ _ hfuel; omega
  | succ fuel ih =>
    intro left right result hl hr hres hlt hge hfuel
    by_cases hlr : left ≤ right
    · have hmid1 : 1 ≤ (left + right) / 2 := by omega
      have hmidl : left ≤ (left + right) / 2 := by omega
      have hmid2 : (left + right) / 2 ≤ right := by omega
      obtain ⟨d, hd⟩ := parse ((left + right) / 2) hmid1 (by omega)
      rw [bsearchGo, if_pos hlr]
      simp only [hd, compareStep, if_true]
      by_cases hcmp : target ≤ d
      · rw [if_pos hcmp]
        refine ih left ((left + right) / 2 - 1) ((left + right) / 2) hl
          (by omega) (by omega) hlt ?_ (by omega)
        intro p dp hp1 hp2 hdp
        by_cases hpr : right < p
        · exact hge p dp hpr hp2 hdp
        · exact le_trans hcmp (sorted ((left + right) / 2) p d dp hmid1
            (by omega) hp2 hd hdp)
      · rw [if_neg hcmp]
        refine ih ((left + right) / 2 + 1) right result (by omega) hr hres
          ?_ hge (by omega)
        intro p dp hp1 hp2 hdp
        by_cases hpl : p < left
        · exact hlt p dp hp1 hpl hdp
        · have : dp ≤ d := sorted p ((left + right) / 2) dp d hp1
            (by omega) (by omega) hdp hd
          omega
    · rw [bsearchGo, if_neg hlr]
      refine ⟨result, rfl, by omega, by omega, ?_, ?_⟩
      · intro p dp hp1 hp2 hdp
        exact hlt p dp hp1 (by omega) hdp
      · intro hRN d hd
        exact hge result d (by omega) hRN hd

/-- When every parseable date is strictly below the target, the
`find_first_gte` loop never updates `result`. -/
theorem bsearchGo_gte_all_below (mb : Mailbox) (N : Nat) (target : Int)
    (parse : ∀ p, 1 ≤ p → p ≤ N → ∃ d, mb p = some d)
    (hall : ∀ p d, 1 ≤ p → p ≤ N → mb p = some d → d < target) :
    ∀ fuel left right result, 1 ≤ left → right ≤ N →
      right + 1 - left < fuel →
      bsearchGo mb N target true fuel left right result = some result := by
  intro fuel
  induction fuel with
  | zero => intro left right result _ _ hfuel; omega
  | succ fuel ih =>
    intro left right result hl hr hfuel
    by_cases hlr : left ≤ right
    · obtain ⟨d, hd⟩ := parse ((left + right) / 2) (by omega) (by omega)
      have hcmp : ¬ target ≤ d := by
        have := hall ((left + right) / 2) d (by omega) (by omega) hd
        omega
      rw [bsearchGo, if_pos hlr]
      simp only [hd, compareStep, if_true, if_neg hcmp]
      exact ih ((left + right) / 2 + 1) right result (by omega) hr (by omega)
    · rw [bsearchGo, if_neg hlr]

/-- When every parseable date is at/above the target, the
`find_first_gte = False` loop never updates `result`. -/
theorem bsearchGo_lt_all_above (mb : Mailbox) (N : Nat) (target : Int)
    (parse : ∀ p, 1 ≤ p → p ≤ N → ∃ d, mb p = some d)
    (hall : ∀ p d, 1 ≤ p → p ≤ N → mb p = some d → target ≤ d) :
    ∀ fuel left right result, 1 ≤ left → right ≤ N →
      right + 1 - left < fuel →
      bsearchGo mb N target false fuel left right result = some result := by
  intro fuel
  induction fuel with
  | zero => intro left right result _ _ hfuel; omega
  | succ fuel ih =>
    intro left right result hl hr hfuel
    by_cases hlr : left ≤ right
    · obtain ⟨d, hd⟩ := parse ((left + right) / 2) (by omega) (by omega)
      have hcmp : ¬ d < target := by
        have := hall ((left + right) / 2) d (by omega) (by omega) hd
        omega
      rw [bsearchGo, if_pos hlr]
      simp only [hd, compareStep, Bool.false_eq_true, if_false, if_neg hcmp]
      exact ih left ((left + right) / 2 - 1) result hl (by omega) (by omega)
    · rw [bsearchGo, if_neg hlr]

/-- C1: for every mailbox size `N ≥ 1`, target date `T`, and mailbox whose
per-position date is non-decreasing in position with all dates parseable,
`binary_search_date(pop, N, T, find_first_gte=True)` returns `R` such that
position `R-1` (when `R-1 ≥ 1`) has date `< T` and position `R`
(when `R ≤ N`) has date `≥ T`. -/
theorem claim_C1_first_gte_boundary (mb : Mailbox) (N : Nat) (target : Int)
    (hN : 1 ≤ N)
    (sorted : ∀ i j di dj, 1 ≤ i → i ≤ j → j ≤ N →
      mb i = some di → mb j = some dj → di ≤ dj)
    (parse : ∀ p, 1 ≤ p → p ≤ N → ∃ d, mb p = some d) :
    ∃ R, binary_search_date mb N target true = some R ∧
      (∀ d, 2 ≤ R → mb (R - 1) = some d → d < target) ∧
      (R ≤ N → ∀ d, mb R = some d → target ≤ d) := by
  obtain ⟨R, hR, h1, h2, h3, h4⟩ :=
    bsearchGo_gte_correct mb N target sorted parse (N + 1) 1 N (N + 1)
      le_rfl le_rfl rfl (by intro p d hp1 hp2 _; omega)
      (by intro p d hp1 hp2 _; omega) (by omega)
  refine ⟨R, ?_, ?_, h4⟩
  · rw [binary_search_date]
    simpa using hR
  · intro d h2R hd
    exact h3 (R - 1) d (by omega) (by omega) hd

/-- A concrete strictly-dated 4-message mailbox used as a witness input. -/
def mbLinear : Mailbox := fun p =>
  if 1 ≤ p ∧ p ≤ 4 then some (p : Int) else none

/-- Witness for C1: on the mailbox with dates `1,2,3,4` and target `3`, the
boundary returned satisfies the C1 contract. -/
theorem claim_C1_witness :
    ∃ R, binary_search_date mbLinear 4 3 true = some R ∧
      (∀ d, 2 ≤ R → mbLinear (R - 1) = some d → d < 3) ∧
      (R ≤ 4 → ∀ d, mbLinear R = some d → 3 ≤ d) :=
  claim_C1_first_gte_boundary mbLinear 4 3 (by decide)
    (by
      intro i j di dj h1 h2 h3 hi hj
      simp only [mbLinear] at hi hj
      rw [if_pos ⟨h1, by omega⟩] at hi
      rw [if_pos ⟨by omega, h3⟩] at hj
      injection hi with hi
      injection hj with hj
      omega)
    (by
      intro p h1 h2
      refine ⟨(p : Int), ?_⟩
      simp only [mbLinear]
      rw [if_pos ⟨h1, h2⟩])

/-- C8: `binary_search_date` returns the sentinel `N+1` when
`find_first_gte` is true and no position in `1..N` has date ≥ target, and
the sentinel `0` when `find_first_gte` is false and no position in `1..N`
has date < target (all probed dates parseable). -/
theorem claim_C8_sentinels (mbA mbB : Mailbox) (N : Nat) (target : Int)
    (parseA : ∀ p, 1 ≤ p → p ≤ N → ∃ d, mbA p = some d)
    (hallA : ∀ p d, 1 ≤ p → p ≤ N → mbA p = some d → d < target)
    (parseB : ∀ p, 1 ≤ p → p ≤ N → ∃ d, mbB p = some d)
    (hallB : ∀ p d, 1 ≤ p → p ≤ N → mbB p = some d → target ≤ d) :
    binary_search_date mbA N target true = some (N + 1) ∧
    binary_search_date mbB N target false = some 0 := by
  constructor
  · rw [binary_search_date]
    simpa using
      bsearchGo_gte_all_below mbA N target parseA hallA (N + 1) 1 N (N + 1)
        le_rfl le_rfl (by omega)
  · rw [binary_search_date]
    simpa using
      bsearchGo_lt_all_above mbB N target parseB hallB (N + 1) 1 N 0
        le_rfl le_rfl (by omega)

/-- A 3-message mailbox with all dates `0`, a witness input for C8. -/
def mbZero : Mailbox := fun p =>
  if 1 ≤ p ∧ p ≤ 3 then some 0 else none

/-- A 3-message mailbox with all dates `10`, a witness input for C8. -/
def mbTen : Mailbox := fun p =>
  if 1 ≤ p ∧ p ≤ 3 then some 10 else none

/-- Witness for C8: with target `5`, a mailbox of dates all `0` yields the
sentinel `4 = N+1` in gte mode, and a mailbox of dates all `10` yields the
sentinel `0` in lt mode. -/
theorem claim_C8_witness :
    binary_search_date mbZero 3 5 true = some 4 ∧
    binary_search_date mbTen 3 5 false = some 0 :=
  claim_C8_sentinels mbZero mbTen 3 5
    (by
      intro p h1 h2
      refine ⟨0, ?_⟩
      simp only [mbZero]
      rw [if_pos ⟨h1, h2⟩])
    (by
      intro p d h1 h2 hd
      simp only [mbZero] at hd
      rw [if_pos ⟨h1, h2⟩] at hd
      injection hd with hd
      omega)
    (by
      intro p h1 h2
      refine ⟨10, ?_⟩
      simp only [mbTen]
      rw [if_pos ⟨h1, h2⟩])
    (by
      intro p d h1 h2 hd
      simp only [mbTen] at hd
      rw [if_pos ⟨h1, h2⟩] at hd
      injection hd with hd
      omega)

/-- The probe positions exactly as the claim words them: offsets
`+1, -1, +2, -2, +5, -5` applied to the candidate, in that order,
restricted to `1..N`. -/
def claimProbePositions (N mid : Nat) : List Nat :=
  (((neighborOffsets.map fun o => (mid : Int) + o).filter
    fun t => decide (1 ≤ t) && decide (t ≤ (N : Int))).map Int.toNat)

/-- The first in-range probe position whose date parses, paired with that
date (the claim-side description of the neighbour probe). -/
def firstParsedNeighbor (mb : Mailbox) (N mid : Nat) : Option (Nat × Int) :=
  (claimProbePositions N mid).findSome? fun p => (mb p).map fun d => (p, d)

/-- The code's neighbour probe walks exactly the claim's offset list in
order, skipping out-of-range candidates, and returns the first position
whose date parses. -/
theorem probeNeighbors_eq_firstParsed (mb : Mailbox) (N mid : Nat) :
    ∀ os : List Int,
      probeNeighbors mb N mid os =
        (((os.map fun o => (mid : Int) + o).filter
          fun t => decide (1 ≤ t) && decide (t ≤ (N : Int))).map
            Int.toNat).findSome? fun p => (mb p).map fun d => (p, d) := by
  intro os
  induction os with
  | nil => rfl
  | cons o rest ih =>
    by_cases h : 1 ≤ (mid : Int) + o ∧ (mid : Int) + o ≤ (N : Int)
    · rw [probeNeighbors, if_pos h]
      have hb : (decide (1 ≤ (mid : Int) + o) &&
          decide ((mid : Int) + o ≤ (N : Int))) = true := by
        simp [h.1, h.2]
      simp only [List.map_cons, List.filter_cons, hb, if_true,
        List.findSome?_cons]
      cases hmb : mb ((mid : Int) + o).toNat with
      | some d => simp [hmb]
      | none => simp only [hmb, Option.map_none']; exact ih
    · rw [probeNeighbors, if_neg h]
      have hb : (decide (1 ≤ (mid : Int) + o) &&
          decide ((mid : Int) + o ≤ (N : Int))) = false := by
        rcases not_and_or.mp h with h1 | h1 <;> simp [h1]
      simp only [List.map_cons, List.filter_cons, hb]
      simpa using ih

/-- C9: whenever the candidate midpoint's date is unparseable, the search
probes exactly the offsets `+1, -1, +2, -2, +5, -5` in that order
(restricted to `1..N`) and adopts the first in-range position that yields
a date as the new candidate; if none yields a date, it advances the left
bound to `mid + 10` and continues the loop rather than stalling or
aborting. -/
theorem claim_C9_probe_step (mb : Mailbox) (N : Nat) (target : Int)
    (findFirstGte : Bool) (fuel left right result : Nat)
    (hlr : left ≤ right) (hmid : mb ((left + right) / 2) = none) :
    bsearchGo mb N target findFirstGte (fuel + 1) left right result =
      match firstParsedNeighbor mb N ((left + right) / 2) with
      | some (m, d) =>
        let s := compareStep target findFirstGte left right result m d
        bsearchGo mb N target findFirstGte fuel s.1 s.2.1 s.2.2
      | none =>
        bsearchGo mb N target findFirstGte fuel ((left + right) / 2 + 10)
          right result := by
  rw [bsearchGo, if_pos hlr]
  simp only [hmid]
  rw [probeNeighbors_eq_firstParsed mb N ((left + right) / 2) neighborOffsets]
  rfl

/-- A 3-message mailbox whose only parseable date sits at position 3,
a witness input for C9 (the candidate midpoint 2 is unparseable and the
first probed offset `+1` yields position 3). -/
def mbHole : Mailbox := fun p => if p = 3 then some 5 else none

/-- Witness for C9 at a concrete state: `left = 1`, `right = 3`, so the
candidate is position 2, which is unparseable. -/
theorem claim_C9_witness :
    bsearchGo mbHole 3 4 true 5 1 3 4 =
      match firstParsedNeighbor mbHole 3 2 with
      | some (m, d) =>
        let s := compareStep 4 true 1 3 4 m d
        bsearchGo mbHole 3 4 true 4 s.1 s.2.1 s.2.2
      | none => bsearchGo mbHole 3 4 true 4 12 3 4 := by
  exact claim_C9_probe_step mbHole 3 4 true 4 1 3 4 (by decide) rfl

/-! ## Delete engine (`delete_messages_robust`, lines 471-616)

The network is modelled by an oracle saying which connect/STAT/dele/commit
operation succeeds at which loop iteration; time.sleep and printing are
modelled as events; the server state is just the message count (a commit
removes exactly the successfully marked messages). -/

/-- Backoff wait after a connection or STAT failure
(lines 499, 517): `min(30 * consecutive_failures, 120)`. -/
def connWait (f : Nat) : Nat := min (30 * f) 120

/-- Backoff wait after a commit failure (line 599):
`min(60 * consecutive_failures, 300)`. -/
def commitWait (f : Nat) : Nat := min (60 * f) 300

/-- `max_failures` (line 483). -/
def max_failures : Nat := 5

/-- Effective batch size (line 481): the configured `BATCH_SIZE` capped at
50. -/
def delete_batch_size (cfgBatchSize : Nat) : Nat := min cfgBatchSize 50

/-- Network oracle for the delete engine: which operation succeeds at which
loop iteration; `finalOk` covers the final connect/STAT/quit after the
loop (lines 609-612). -/
structure DelOracle where
  connectOk : Nat → Bool
  statOk : Nat → Bool
  deleOk : Nat → Nat → Bool
  commitOk : Nat → Bool
  finalOk : Bool

/-- Observable events of a delete run. -/
inductive DelEvent
  | observed (n : Nat)
  | batch (start count marked : Nat)
  | sleepConn (w : Nat)
  | sleepCommit (w : Nat)
  | commit (marked : Nat)
  deriving DecidableEq, Repr

/-- State of the delete engine between loop iterations. `lastObserved` is
the Python `num_messages` variable (the last successful STAT),
`initialCount` the first one. -/
structure DelState where
  mailCount : Nat
  consecutiveFailures : Nat
  initialCount : Option Nat
  lastObserved : Option Nat
  iter : Nat
  events : List DelEvent
  deriving DecidableEq, Repr

/-- How the `while True` loop of `delete_messages_robust` was exited. -/
inductive DelExit
  | emptyMailbox
  | targetReached
  | startBeyond
  | emptyBatch
  | tooManyFailures
  | outOfFuel
  deriving DecidableEq, Repr

/-- The marking pass (lines 569-583): try `dele` on each position of the
batch range in order, counting successes (`marked`) and errors; more than
10 errors aborts the pass ("trying to commit what we have"). -/
def markLoopGo (o : DelOracle) (iter : Nat) :
    List Nat → Nat → Nat → Nat × Nat
  | [], marked, errors => (marked, errors)
  | i :: rest, marked, errors =>
    if o.deleOk iter i then markLoopGo o iter rest (marked + 1) errors
    else if 10 < errors + 1 then (marked, errors + 1)
    else markLoopGo o iter rest marked (errors + 1)

/-- Marking over positions `cs, cs+1, ..., cs+bc-1`. -/
def markLoop (o : DelOracle) (iter cs bc : Nat) : Nat × Nat :=
  markLoopGo o iter (List.range' cs bc) 0 0

/-- The batch size actually attempted in one iteration (line 557):
`min(batch_size, remaining, num_messages - current_start + 1)`, where
`remaining = target - actual_deleted`. -/
def delBatchCount (cfgBatchSize target startPosition : Nat)
    (s : DelState) : Nat :=
  min (min (delete_batch_size cfgBatchSize)
    (target - (s.initialCount.getD s.mailCount - s.mailCount)))
    (s.mailCount - startPosition + 1)

/-- One iteration of the `while True` loop of `delete_messages_robust`
(lines 488-606). `.inl` loops again, `.inr` breaks out with the reason.
The read cursor is always the fixed `startPosition` (lines 543-548 set
`current_start = start_position` in every case). -/
def delStep (cfgBatchSize : Nat) (o : DelOracle) (target startPosition : Nat)
    (s : DelState) : DelState ⊕ (DelExit × DelState) :=
  if o.connectOk s.iter = false then
    if max_failures ≤ s.consecutiveFailures + 1 then
      .inr (.tooManyFailures, { s with
        consecutiveFailures := s.consecutiveFailures + 1,
        iter := s.iter + 1 })
    else
      .inl { s with
        consecutiveFailures := s.consecutiveFailures + 1,
        iter := s.iter + 1,
        events := s.events ++
          [DelEvent.sleepConn (connWait (s.consecutiveFailures + 1))] }
  else if o.statOk s.iter = false then
    if max_failures ≤ s.consecutiveFailures + 1 then
      .inr (.tooManyFailures, { s with
        consecutiveFailures := s.consecutiveFailures + 1,
        iter := s.iter + 1 })
    else
      .inl { s with
        consecutiveFailures := s.consecutiveFailures + 1,
        iter := s.iter + 1,
        events := s.events ++
          [DelEvent.sleepConn (connWait (s.consecutiveFailures + 1))] }
  else
    let num := s.mailCount
    let initial := s.initialCount.getD num
    let s1 := { s with
      initialCount := some initial,
      lastObserved := some num,
      iter := s.iter + 1,
      events := s.events ++ [DelEvent.observed num] }
    if num = 0 then .inr (.emptyMailbox, s1)
    else if target ≤ initial - num then .inr (.targetReached, s1)
    else if num < startPosition then .inr (.startBeyond, s1)
    else
      let batchCount := delBatchCount cfgBatchSize target startPosition s
      if batchCount = 0 then .inr (.emptyBatch, s1)
      else
        let mk := markLoop o s.iter startPosition batchCount
        let s2 := { s1 with events := s1.events ++
          [DelEvent.batch startPosition batchCount mk.1] }
        if o.commitOk s.iter then
          .inl { s2 with
            mailCount := num - mk.1,
            consecutiveFailures := 0,
            events := s2.events ++ [DelEvent.commit mk.1] }
        else if max_failures ≤ s.consecutiveFailures + 1 then
          .inr (.tooManyFailures, { s2 with
            consecutiveFailures := s.consecutiveFailures + 1 })
        else
          .inl { s2 with
            consecutiveFailures := s.consecutiveFailures + 1,
            events := s2.events ++
              [DelEvent.sleepCommit (commitWait (s.consecutiveFailures + 1))] }

/-- The `while True` loop, bounded by fuel (the Python loop need not
terminate for adversarial oracles). -/
def delRun (cfgBatchSize : Nat) (o : DelOracle) (target startPosition : Nat) :
    Nat → DelState → DelExit × DelState
  | 0, s => (.outOfFuel, s)
  | fuel + 1, s =>
    match delStep cfgBatchSize o target startPosition s with
    | .inl s' => delRun cfgBatchSize o target startPosition fuel s'
    | .inr r => r

/-- Initial engine state for a mailbox currently holding `mailCount0`
messages. -/
def delInit (mailCount0 : Nat) : DelState :=
  { mailCount := mailCount0, consecutiveFailures := 0, initialCount := none,
    lastObserved := none, iter := 0, events := [] }

/-- `delete_messages_robust` (lines 471-616): run the loop, then compute
the returned count from the final observed mailbox count (lines 608-616);
on a failing final connect, fall back to `initial_count - num_messages`
(the last count observed inside the loop), and to `0` when no count was
ever observed. -/
def delete_messages_robust (fuel cfgBatchSize : Nat) (o : DelOracle)
    (target startPosition mailCount0 : Nat) : Nat × DelExit × DelState :=
  let r := delRun cfgBatchSize o target startPosition fuel (delInit mailCount0)
  let total :=
    if o.finalOk then
      match r.2.initialCount with
      | some i => i - r.2.mailCount
      | none => 0
    else
      match r.2.initialCount, r.2.lastObserved with
      | some i, some n => i - n
      | _, _ => 0
  (total, r)

/-- An oracle on which every operation succeeds. -/
def delAllOk : DelOracle :=
  ⟨fun _ => true, fun _ => true, fun _ _ => true, fun _ => true, true⟩

example : (delete_messages_robust 10 50 delAllOk 3 1 5).1 = 3 := by decide

example :
    (delete_messages_robust 10 50 delAllOk 3 1 5).2.1 = DelExit.targetReached := by
  decide

example :
    (delete_messages_robust 10 50 delAllOk 99 1 5).2.1 = DelExit.emptyMailbox := by
  decide

/-- The marking pass marks at most as many messages as it was given
positions. -/
theorem markLoopGo_le (o : DelOracle) (iter : Nat) :
    ∀ l marked errors,
      (markLoopGo o iter l marked errors).1 ≤ marked + l.length := by
  intro l
  induction l with
  | nil => intro marked errors; simp [markLoopGo]
  | cons i rest ih =>
    intro marked errors
    rw [markLoopGo]
    by_cases h : o.deleOk iter i = true
    · rw [if_pos h]
      have := ih (marked + 1) errors
      simp only [List.length_cons]
      omega
    · rw [if_neg h]
      by_cases h10 : 10 < errors + 1
      · rw [if_pos h10]
        simp
      · rw [if_neg h10]
        have := ih marked (errors + 1)
        simp only [List.length_cons]
        omega

/-- A batch of `bc` positions marks at most `bc` messages. -/
theorem markLoop_le (o : DelOracle) (iter cs bc : Nat) :
    (markLoop o iter cs bc).1 ≤ bc := by
  have := markLoopGo_le o iter (List.range' cs bc) 0 0
  simpa [markLoop] using this

/-- The loop exits the code reports as success ("done"), as opposed to the
failure-ceiling exit and running out of fuel. -/
def DelExit.isDone : DelExit → Bool
  | .emptyMailbox => true
  | .targetReached => true
  | .startBeyond => true
  | .emptyBatch => true
  | _ => false

/-- Any state the loop continues from has fewer than `max_failures`
consecutive failures. -/
theorem delStep_inl_cf (cfg : Nat) (o : DelOracle) (target sp : Nat)
    (s s' : DelState) (h : delStep cfg o target sp s = Sum.inl s') :
    s'.consecutiveFailures < max_failures := by
  simp only [delStep] at h
  repeat' split at h
  all_goals first
    | (cases h; done)
    | (injection h with h; subst h; simp_all [max_failures]; try omega)

/-- The failure-ceiling exit happens exactly by incrementing past the
ceiling. -/
theorem delStep_tooMany_cf (cfg : Nat) (o : DelOracle) (target sp : Nat)
    (s s' : DelState)
    (h : delStep cfg o target sp s = Sum.inr (DelExit.tooManyFailures, s')) :
    s'.consecutiveFailures = s.consecutiveFailures + 1 ∧
    max_failures ≤ s.consecutiveFailures + 1 := by
  simp only [delStep] at h
  repeat' split at h
  all_goals first
    | (cases h; done)
    | (injection h with h; injection h with h1 h2; subst h2;
       simp_all [max_failures]; try omega)

/-- A run that exits at the failure ceiling does so with the counter at
exactly `max_failures` (the loop breaks as soon as the counter reaches the
ceiling, so it can never strictly exceed it). -/
theorem delRun_tooMany_cf (cfg : Nat) (o : DelOracle) (target sp : Nat) :
    ∀ fuel s, s.consecutiveFailures < max_failures →
      (delRun cfg o target sp fuel s).1 = DelExit.tooManyFailures →
      (delRun cfg o target sp fuel s).2.consecutiveFailures = max_failures := by
  intro fuel
  induction fuel with
  | zero =>
    intro s h hx
    rw [delRun] at hx
    cases hx
  | succ fuel ih =>
    intro s h hx
    rw [delRun] at hx ⊢
    cases hstep : delStep cfg o target sp s with
    | inl s' =>
      rw [hstep] at hx
      dsimp only at hx ⊢
      exact ih s' (delStep_inl_cf cfg o target sp s s' hstep) hx
    | inr r =>
      obtain ⟨tag, s'⟩ := r
      rw [hstep] at hx
      dsimp only at hx ⊢
      subst hx
      obtain ⟨h1, h2⟩ := delStep_tooMany_cf cfg o target sp s s' hstep
      simp only [max_failures] at *
      omega

/-- The value `delete_messages_robust` returns is the first observed count
minus a later observed count (the current count when the final STAT
succeeds, the last in-loop count otherwise), and `0` when no count was
ever observed — never an in-memory tally. -/
theorem delete_messages_robust_total (fuel cfg : Nat) (o : DelOracle)
    (t sp m0 : Nat) :
    (delete_messages_robust fuel cfg o t sp m0).1 = 0 ∨
    ∃ i c,
      (delete_messages_robust fuel cfg o t sp m0).2.2.initialCount = some i ∧
      (c = (delete_messages_robust fuel cfg o t sp m0).2.2.mailCount ∨
        (delete_messages_robust fuel cfg o t sp m0).2.2.lastObserved = some c) ∧
      (delete_messages_robust fuel cfg o t sp m0).1 = i - c := by
  unfold delete_messages_robust
  cases hfin : o.finalOk with
  | true =>
    cases hic : (delRun cfg o t sp fuel (delInit m0)).2.initialCount with
    | none => simp [hic]
    | some i =>
      right
      refine ⟨i, (delRun cfg o t sp fuel (delInit m0)).2.mailCount, ?_⟩
      simp [hic]
  | false =>
    cases hic : (delRun cfg o t sp fuel (delInit m0)).2.initialCount with
    | none => simp [hic]
    | some i =>
      cases hlo : (delRun cfg o t sp fuel (delInit m0)).2.lastObserved with
      | none => simp [hic, hlo]
      | some n =>
        right
        refine ⟨i, n, ?_⟩
        simp [hic, hlo]

/-- Counterexample to C3 as stated: with start position 2 on a 1-message
mailbox (target 5, all operations succeeding), the loop exits successfully
("Start position beyond mailbox, done!") although the observed
`actualDeleted` is `1 - 1 = 0 < 5` and the observed mailbox count is
`1 ≠ 0` — a third successful-exit condition exists. -/
theorem claim_C3_counterexample :
    (delete_messages_robust 10 50 delAllOk 5 2 1).2.1 = DelExit.startBeyond ∧
    DelExit.isDone DelExit.startBeyond = true ∧
    (delete_messages_robust 10 50 delAllOk 5 2 1).2.2.initialCount = some 1 ∧
    (delete_messages_robust 10 50 delAllOk 5 2 1).2.2.lastObserved = some 1 ∧
    ¬ (5 ≤ 1 - (1 : Nat) ∨ (1 : Nat) = 0) := by decide

/-- C3 (amended): progress is computed only as
`actualDeleted = initialCount - currentCount` from the externally observed
count; with a positive configured batch size, the loop exits successfully
(DONE) in an iteration exactly when `actualDeleted ≥ target`, or the
observed count is 0, **or the fixed start position exceeds the observed
count**; and the returned value is always an initial observed count minus
a later observed count (or 0 when nothing was observed), never an
in-memory tally of marks. -/
theorem claim_C3_observed_progress (cfg : Nat) (o : DelOracle)
    (target sp : Nat) (s : DelState) (fuel m0 : Nat) (hcfg : 1 ≤ cfg) :
    (∀ t s', delStep cfg o target sp s = Sum.inr (t, s') →
      t.isDone = true →
      target ≤ s.initialCount.getD s.mailCount - s.mailCount ∨
      s.mailCount = 0 ∨ s.mailCount < sp) ∧
    (o.connectOk s.iter = true → o.statOk s.iter = true →
      (target ≤ s.initialCount.getD s.mailCount - s.mailCount ∨
        s.mailCount = 0 ∨ s.mailCount < sp) →
      ∃ t s', delStep cfg o target sp s = Sum.inr (t, s') ∧
        t.isDone = true) ∧
    ((delete_messages_robust fuel cfg o target sp m0).1 = 0 ∨
      ∃ i c,
        (delete_messages_robust fuel cfg o target sp m0).2.2.initialCount =
          some i ∧
        (c = (delete_messages_robust fuel cfg o target sp m0).2.2.mailCount ∨
          (delete_messages_robust fuel cfg o target sp m0).2.2.lastObserved =
            some c) ∧
        (delete_messages_robust fuel cfg o target sp m0).1 = i - c) := by
  refine ⟨?_, ?_, delete_messages_robust_total fuel cfg o target sp m0⟩
  · intro t s' h ht
    simp only [delStep] at h
    repeat' split at h
    all_goals first
      | (cases h; done)
      | (injection h with h; injection h with h1 h2; subst h1;
         simp [DelExit.isDone] at ht; done)
      | (injection h with h; injection h with h1 h2; subst h1; tauto)
      | (injection h with h; injection h with h1 h2; subst h1;
         simp only [delBatchCount, delete_batch_size] at *; omega)
  · intro hc hs hcond
    have hc' : ¬ o.connectOk s.iter = false := by simp [hc]
    have hs' : ¬ o.statOk s.iter = false := by simp [hs]
    by_cases h0 : s.mailCount = 0
    · refine ⟨DelExit.emptyMailbox, { s with
        initialCount := some (s.initialCount.getD s.mailCount),
        lastObserved := some s.mailCount,
        iter := s.iter + 1,
        events := s.events ++ [DelEvent.observed s.mailCount] }, ?_, rfl⟩
      simp only [delStep]
      rw [if_neg hc', if_neg hs', if_pos h0]
    · by_cases h1 : target ≤ s.initialCount.getD s.mailCount - s.mailCount
      · refine ⟨DelExit.targetReached, { s with
          initialCount := some (s.initialCount.getD s.mailCount),
          lastObserved := some s.mailCount,
          iter := s.iter + 1,
          events := s.events ++ [DelEvent.observed s.mailCount] }, ?_, rfl⟩
        simp only [delStep]
        rw [if_neg hc', if_neg hs', if_neg h0, if_pos h1]
      · have h2 : s.mailCount < sp := by tauto
        refine ⟨DelExit.startBeyond, { s with
          initialCount := some (s.initialCount.getD s.mailCount),
          lastObserved := some s.mailCount,
          iter := s.iter + 1,
          events := s.events ++ [DelEvent.observed s.mailCount] }, ?_, rfl⟩
        simp only [delStep]
        rw [if_neg hc', if_neg hs', if_neg h0, if_neg h1, if_pos h2]

/-- Witness for C3 (amended) at the concrete counterexample input. -/
theorem claim_C3_witness :
    (∀ t s', delStep 50 delAllOk 5 2 (delInit 1) = Sum.inr (t, s') →
      t.isDone = true →
      5 ≤ (delInit 1).initialCount.getD (delInit 1).mailCount -
        (delInit 1).mailCount ∨
      (delInit 1).mailCount = 0 ∨ (delInit 1).mailCount < 2) ∧
    (delAllOk.connectOk (delInit 1).iter = true →
      delAllOk.statOk (delInit 1).iter = true →
      (5 ≤ (delInit 1).initialCount.getD (delInit 1).mailCount -
        (delInit 1).mailCount ∨
        (delInit 1).mailCount = 0 ∨ (delInit 1).mailCount < 2) →
      ∃ t s', delStep 50 delAllOk 5 2 (delInit 1) = Sum.inr (t, s') ∧
        t.isDone = true) ∧
    ((delete_messages_robust 10 50 delAllOk 5 2 1).1 = 0 ∨
      ∃ i c,
        (delete_messages_robust 10 50 delAllOk 5 2 1).2.2.initialCount =
          some i ∧
        (c = (delete_messages_robust 10 50 delAllOk 5 2 1).2.2.mailCount ∨
          (delete_messages_robust 10 50 delAllOk 5 2 1).2.2.lastObserved =
            some c) ∧
        (delete_messages_robust 10 50 delAllOk 5 2 1).1 = i - c) :=
  claim_C3_observed_progress 50 delAllOk 5 2 (delInit 1) 10 1 (by decide)

/-- Oracle on which every connection attempt fails. -/
def delConnFail : DelOracle :=
  ⟨fun _ => false, fun _ => true, fun _ _ => true, fun _ => true, true⟩

/-- Counterexample to C4 as stated: with every connect failing, the loop
stops retrying as soon as `consecutive_failures` *reaches*
`max_failures = 5`; it never strictly exceeds the ceiling. -/
theorem claim_C4_counterexample :
    (delete_messages_robust 10 50 delConnFail 3 1 5).2.1 =
      DelExit.tooManyFailures ∧
    (delete_messages_robust 10 50 delConnFail 3 1 5).2.2.consecutiveFailures
      = max_failures ∧
    ¬ max_failures <
      (delete_messages_robust 10 50 delConnFail 3 1 5).2.2.consecutiveFailures
    := by decide

/-- C4 (amended): the loop stops retrying exactly when
`consecutive_failures` has *reached* the ceiling `max_failures = 5`
(not strictly exceeded it), and on that terminal outcome the function
still returns progress derived from observed counts, never an optimistic
in-memory estimate. -/
theorem claim_C4_failure_ceiling (fuel cfg : Nat) (o : DelOracle)
    (target sp m0 : Nat)
    (h : (delete_messages_robust fuel cfg o target sp m0).2.1 =
      DelExit.tooManyFailures) :
    (delete_messages_robust fuel cfg o target sp m0).2.2.consecutiveFailures
      = max_failures ∧
    ((delete_messages_robust fuel cfg o target sp m0).1 = 0 ∨
      ∃ i c,
        (delete_messages_robust fuel cfg o target sp m0).2.2.initialCount =
          some i ∧
        (c = (delete_messages_robust fuel cfg o target sp m0).2.2.mailCount ∨
          (delete_messages_robust fuel cfg o target sp m0).2.2.lastObserved =
            some c) ∧
        (delete_messages_robust fuel cfg o target sp m0).1 = i - c) := by
  refine ⟨?_, delete_messages_robust_total fuel cfg o target sp m0⟩
  have hrun : (delete_messages_robust fuel cfg o target sp m0).2 =
      delRun cfg o target sp fuel (delInit m0) := rfl
  rw [hrun] at h ⊢
  exact delRun_tooMany_cf cfg o target sp fuel (delInit m0)
    (by simp [delInit, max_failures]) h

/-- Witness for C4 (amended) at the all-connects-fail oracle. -/
theorem claim_C4_witness :
    (delete_messages_robust 10 50 delConnFail 3 1 5).2.2.consecutiveFailures
      = max_failures ∧
    ((delete_messages_robust 10 50 delConnFail 3 1 5).1 = 0 ∨
      ∃ i c,
        (delete_messages_robust 10 50 delConnFail 3 1 5).2.2.initialCount =
          some i ∧
        (c = (delete_messages_robust 10 50 delConnFail 3 1 5).2.2.mailCount ∨
          (delete_messages_robust 10 50 delConnFail 3 1 5).2.2.lastObserved =
            some c) ∧
        (delete_messages_robust 10 50 delConnFail 3 1 5).1 = i - c) :=
  claim_C4_failure_ceiling 10 50 delConnFail 3 1 5 (by decide)

/-- C5: for every `consecutive_failures` value `f ≥ 1`, the backoff waits
computed by `delete_messages_robust` equal `min(base * f, cap)` with a
strictly larger base and cap for commit failures (base 60, cap 300) than
for connection/count failures (base 30, cap 120); the waits are
non-decreasing in `f` and constant once `base * f` reaches the cap. -/
theorem claim_C5_backoff (f g : Nat) (hf : 1 ≤ f) (hfg : f ≤ g) :
    connWait f = min (30 * f) 120 ∧
    commitWait f = min (60 * f) 300 ∧
    30 < 60 ∧ 120 < 300 ∧
    connWait f ≤ connWait g ∧
    commitWait f ≤ commitWait g ∧
    (120 ≤ 30 * f → connWait f = 120) ∧
    (300 ≤ 60 * f → commitWait f = 300) ∧
    connWait f < commitWait f := by
  have hmono : ∀ a b c : Nat, a ≤ b → min a c ≤ min b c := by
    intro a b c h
    simp only [Nat.min_def]
    split_ifs <;> omega
  have hplat : ∀ a c : Nat, c ≤ a → min a c = c := by
    intro a c h
    simp only [Nat.min_def]
    split_ifs <;> omega
  refine ⟨rfl, rfl, by omega, by omega,
    hmono _ _ _ (by omega), hmono _ _ _ (by omega),
    fun h => hplat _ _ h, fun h => hplat _ _ h, ?_⟩
  simp only [connWait, commitWait, Nat.min_def]
  split_ifs <;> omega

/-- Witness for C5 at `f = 2`, `g = 4`. -/
theorem claim_C5_witness :
    connWait 2 = min (30 * 2) 120 ∧
    commitWait 2 = min (60 * 2) 300 ∧
    30 < 60 ∧ 120 < 300 ∧
    connWait 2 ≤ connWait 4 ∧
    commitWait 2 ≤ commitWait 4 ∧
    (120 ≤ 30 * 2 → connWait 2 = 120) ∧
    (300 ≤ 60 * 2 → commitWait 2 = 300) ∧
    connWait 2 < commitWait 2 :=
  claim_C5_backoff 2 4 (by decide) (by decide)

/-! ## Backup pipeline (`backup_emails_to_zip`, lines 283-468)

The mailbox is a list of messages (1-based sequence position = index + 1);
the zip filesystem is an append-only log of written entries. The code
groups a batch's writes by bundle before writing (lines 404-414); the
entries written and their per-bundle order are the same as writing them in
batch order, which is how the log records them. -/

/-- A stored message: an identity (tracking it through archive and
deletion) and the optional `(year, month)` of its parsed date, `none` when
the date is unparseable. -/
structure Msg where
  mid : Nat
  date : Option (Nat × Nat)
  deriving DecidableEq, Repr

/-- Network oracle for the backup pipeline. -/
structure BakOracle where
  connectOk : Nat → Bool
  statOk : Nat → Bool
  retrOk : Nat → Nat → Bool
  deleOk : Nat → Nat → Bool
  commitOk : Nat → Bool

/-- Observable events of a backup run: an archive entry written (zip
bundle key `(year, month)`, `.eml` file index, message identity), a batch
read started, and a successful deletion commit (identities removed). -/
inductive BakEvent
  | zipWrite (zipKey : Nat × Nat) (emlIndex : Nat) (mid : Nat)
  | batchRead (backedUpBefore start count : Nat)
  | commit (mids : List Nat)
  deriving DecidableEq, Repr

/-- State of the backup pipeline between loop iterations. -/
structure BakState where
  mailbox : List Msg
  backedUp : Nat
  deleted : Nat
  consecutiveFailures : Nat
  remaining : Nat
  iter : Nat
  events : List BakEvent
  deriving DecidableEq, Repr

/-- How the backup loop ended. -/
inductive BakExit
  | finished
  | noMore
  | tooManyFailures
  | outOfFuel
  deriving DecidableEq, Repr

/-- The hard-coded per-batch download size (line 313); the configured
`BATCH_SIZE` is not consulted here. -/
def backupBatchSize : Nat := 50

/-- The read cursor for a batch (lines 347-351): the fixed range start
when deletion is interleaved, else the start advanced by the running
backed-up count. -/
def backupCurrentStart (delete_after : Bool) (start_pos backedUp : Nat) :
    Nat :=
  if delete_after then start_pos else start_pos + backedUp

/-- The zip bundle key (lines 376-386): `(year, month)` of the message's
date, with `(1970, 1)` as the bucket for unparseable dates; the bundle's
file name is `emails_<year>-<month>.zip`. -/
def zipKeyOf (m : Msg) : Nat × Nat :=
  match m.date with
  | some ym => ym
  | none => (1970, 1)

/-- The number of positions attempted in one batch (line 360):
`min(batch_size, remaining, num_messages - current_start + 1)` with the
hard-coded `batch_size = 50`. -/
def bakBatchCount (delete_after : Bool) (start_pos : Nat) (s : BakState) :
    Nat :=
  min (min backupBatchSize s.remaining)
    (s.mailbox.length -
      backupCurrentStart delete_after start_pos s.backedUp + 1)

/-- Accumulator of the download loop (lines 366-395): collected
`batch_emails` (bundle key, file index, identity), `batch_msg_nums`, and
the running `consecutive_failures`. -/
structure DlAcc where
  emails : List ((Nat × Nat) × Nat × Nat)
  msgNums : List Nat
  cf : Nat
  deriving DecidableEq, Repr

/-- The download loop (lines 369-395): retrieve each position of the
batch; a successful retrieve appends the message to both `batch_emails`
(with file index `backed_up + len(batch_emails) + 1`, line 385) and
`batch_msg_nums`; a failed retrieve increments `consecutive_failures` and
stops the loop once it reaches `max_failures`. -/
def downloadBatch (o : BakOracle) (iter : Nat) (mailbox : List Msg)
    (backedUp : Nat) : List Nat → DlAcc → DlAcc
  | [], acc => acc
  | p :: rest, acc =>
    if o.retrOk iter p then
      downloadBatch o iter mailbox backedUp rest
        { acc with
          emails := acc.emails ++
            [(zipKeyOf (mailbox.getD (p - 1) ⟨0, none⟩),
              backedUp + acc.emails.length + 1,
              (mailbox.getD (p - 1) ⟨0, none⟩).mid)],
          msgNums := acc.msgNums ++ [p] }
    else if max_failures ≤ acc.cf + 1 then { acc with cf := acc.cf + 1 }
    else
      downloadBatch o iter mailbox backedUp rest { acc with cf := acc.cf + 1 }

/-- The download of one batch from state `s` (lines 369-395). -/
def bakDownload (o : BakOracle) (delete_after : Bool) (start_pos : Nat)
    (s : BakState) : DlAcc :=
  downloadBatch o s.iter s.mailbox s.backedUp
    (List.range' (backupCurrentStart delete_after start_pos s.backedUp)
      (bakBatchCount delete_after start_pos s))
    ⟨[], [], s.consecutiveFailures⟩

/-- Remove the messages at the given 1-based positions: a successful
commit applies exactly the successfully marked positions. -/
def removePositions (mailbox : List Msg) (marks : List Nat) : List Msg :=
  (mailbox.enum.filter fun pe => ! marks.contains (pe.1 + 1)).map Prod.snd

/-- One iteration of the backup loop (lines 319-453), entered with
`remaining > 0`. `.inl` loops again, `.inr` breaks out. -/
def bakStep (o : BakOracle) (delete_after : Bool) (start_pos : Nat)
    (s : BakState) : BakState ⊕ (BakExit × BakState) :=
  if o.connectOk s.iter = false then
    if max_failures ≤ s.consecutiveFailures + 1 then
      .inr (.tooManyFailures, { s with
        consecutiveFailures := s.consecutiveFailures + 1,
        iter := s.iter + 1 })
    else
      .inl { s with
        consecutiveFailures := s.consecutiveFailures + 1,
        iter := s.iter + 1 }
  else if o.statOk s.iter = false then
    .inl { s with
      consecutiveFailures := s.consecutiveFailures + 1,
      iter := s.iter + 1 }
  else
    let num := s.mailbox.length
    let currentStart := backupCurrentStart delete_after start_pos s.backedUp
    if num < currentStart then
      .inr (.noMore, { s with iter := s.iter + 1 })
    else
      let batchCount := bakBatchCount delete_after start_pos s
      let d := bakDownload o delete_after start_pos s
      let s1 := { s with events := s.events ++
        [BakEvent.batchRead s.backedUp currentStart batchCount] }
      if max_failures ≤ d.cf then
        .inr (.tooManyFailures, { s1 with
          consecutiveFailures := d.cf,
          iter := s.iter + 1 })
      else
        let s2 := { s1 with
          consecutiveFailures := d.cf,
          backedUp := s.backedUp + d.emails.length,
          remaining := s.remaining - d.emails.length,
          events := s1.events ++
            d.emails.map fun e : (Nat × Nat) × Nat × Nat =>
              BakEvent.zipWrite e.1 e.2.1 e.2.2 }
        if delete_after ∧ d.msgNums ≠ [] then
          if o.commitOk s.iter then
            .inl { s2 with
              mailbox := removePositions s.mailbox
                (d.msgNums.filter fun p => o.deleOk s.iter p),
              deleted := s.deleted + d.msgNums.length,
              consecutiveFailures := 0,
              iter := s.iter + 1,
              events := s2.events ++
                [BakEvent.commit
                  ((d.msgNums.filter fun p => o.deleOk s.iter p).map
                    fun p => (s.mailbox.getD (p - 1) ⟨0, none⟩).mid)] }
          else
            .inl { s2 with
              consecutiveFailures := d.cf + 1,
              backedUp := s2.backedUp - d.emails.length,
              remaining := s2.remaining + d.emails.length,
              iter := s.iter + 1 }
        else
          .inl { s2 with
            consecutiveFailures := 0,
            iter := s.iter + 1 }

/-- The `while remaining > 0` loop (line 319), bounded by fuel. -/
def bakRun (o : BakOracle) (delete_after : Bool) (start_pos : Nat) :
    Nat → BakState → BakExit × BakState
  | 0, s => (.outOfFuel, s)
  | fuel + 1, s =>
    if s.remaining = 0 then (.finished, s)
    else
      match bakStep o delete_after start_pos s with
      | .inl s' => bakRun o delete_after start_pos fuel s'
      | .inr r => r

/-- `backup_emails_to_zip` (lines 283-468) on the inclusive range
`start_pos..end_pos`; the Python return value `(backed_up, deleted)` is
the pair of those fields of the final state. -/
def backup_emails_to_zip (fuel : Nat) (o : BakOracle) (mailbox0 : List Msg)
    (start_pos end_pos : Nat) (delete_after : Bool) :
    BakExit × BakState :=
  bakRun o delete_after start_pos fuel
    { mailbox := mailbox0, backedUp := 0, deleted := 0,
      consecutiveFailures := 0, remaining := end_pos + 1 - start_pos,
      iter := 0, events := [] }

/-- An oracle on which every backup operation succeeds. -/
def bakAllOk : BakOracle :=
  ⟨fun _ => true, fun _ => true, fun _ _ => true, fun _ _ => true,
    fun _ => true⟩

/-- A 3-message mailbox for concrete runs. -/
def mbox3 : List Msg :=
  [⟨1, some (2019, 12)⟩, ⟨2, some (2020, 1)⟩, ⟨3, none⟩]

example :
    (backup_emails_to_zip 5 bakAllOk mbox3 1 3 false).2.backedUp = 3 := by
  decide

example :
    (backup_emails_to_zip 5 bakAllOk mbox3 1 3 true).2.deleted = 3 := by
  decide

example :
    (backup_emails_to_zip 5 bakAllOk mbox3 1 3 true).2.mailbox = [] := by
  decide

example :
    (backup_emails_to_zip 5 bakAllOk mbox3 1 3 false).1 = BakExit.finished
    := by decide

/-- The download loop collects at most one email per probed position. -/
theorem downloadBatch_emails_len (o : BakOracle) (iter : Nat)
    (mailbox : List Msg) (backedUp : Nat) :
    ∀ ps acc, (downloadBatch o iter mailbox backedUp ps acc).emails.length ≤
      acc.emails.length + ps.length := by
  intro ps
  induction ps with
  | nil => intro acc; simp [downloadBatch]
  | cons p rest ih =>
    intro acc
    rw [downloadBatch]
    by_cases hr : o.retrOk iter p = true
    · rw [if_pos hr]
      have := ih { acc with
        emails := acc.emails ++
          [(zipKeyOf (mailbox.getD (p - 1) ⟨0, none⟩),
            backedUp + acc.emails.length + 1,
            (mailbox.getD (p - 1) ⟨0, none⟩).mid)],
        msgNums := acc.msgNums ++ [p] }
      simp only [List.length_append, List.length_cons, List.length_nil] at *
      omega
    · rw [if_neg hr]
      by_cases hm : max_failures ≤ acc.cf + 1
      · rw [if_pos hm]
        simp only [List.length_cons]
        omega
      · rw [if_neg hm]
        have := ih { acc with cf := acc.cf + 1 }
        simp only [List.length_cons] at *
        omega

/-- Every position collected in `batch_msg_nums` has a matching collected
email carrying that message's identity (both are appended inside the same
successful-retrieve branch, lines 388-389). -/
theorem downloadBatch_msgNums_covered (o : BakOracle) (iter : Nat)
    (mailbox : List Msg) (backedUp : Nat) :
    ∀ ps acc,
      (∀ p ∈ acc.msgNums, ∃ k i,
        (k, i, (mailbox.getD (p - 1) ⟨0, none⟩).mid) ∈ acc.emails) →
      ∀ p ∈ (downloadBatch o iter mailbox backedUp ps acc).msgNums,
        ∃ k i, (k, i, (mailbox.getD (p - 1) ⟨0, none⟩).mid) ∈
          (downloadBatch o iter mailbox backedUp ps acc).emails := by
  intro ps
  induction ps with
  | nil => intro acc hinv; simpa [downloadBatch] using hinv
  | cons q rest ih =>
    intro acc hinv
    rw [downloadBatch]
    by_cases hr : o.retrOk iter q = true
    · rw [if_pos hr]
      refine ih _ ?_
      intro p hp
      simp only [List.mem_append, List.mem_singleton] at hp
      rcases hp with hp | hp
      · obtain ⟨k, i, hk⟩ := hinv p hp
        refine ⟨k, i, ?_⟩
        simp only [List.mem_append]
        exact Or.inl hk
      · subst hp
        refine ⟨zipKeyOf (mailbox.getD (p - 1) ⟨0, none⟩),
          backedUp + acc.emails.length + 1, ?_⟩
        simp
    · rw [if_neg hr]
      by_cases hm : max_failures ≤ acc.cf + 1
      · rw [if_pos hm]
        simpa using hinv
      · rw [if_neg hm]
        exact ih _ hinv

/-- Every position in a batch's `batch_msg_nums` has a matching collected
email carrying that message's identity. -/
theorem bakDownload_msgNums_covered (o : BakOracle) (da : Bool) (sp : Nat)
    (s : BakState) :
    ∀ p ∈ (bakDownload o da sp s).msgNums,
      ∃ k i, (k, i, (s.mailbox.getD (p - 1) ⟨0, none⟩).mid) ∈
        (bakDownload o da sp s).emails := by
  intro p hp
  exact downloadBatch_msgNums_covered o s.iter s.mailbox s.backedUp _ _
    (by simp) p hp

/-- The state carried out of a loop iteration, whether the loop continues
or breaks. -/
def stepState (r : BakState ⊕ (BakExit × BakState)) : BakState :=
  match r with
  | .inl s' => s'
  | .inr (_, s') => s'

/-- Shape of the events one backup iteration appends: nothing, or one
batch-read event (recording the cursor rule and a batch of at most
`backupBatchSize` positions), then that batch's archive writes, then —
only on a successful commit — one commit event whose every identity has an
archive write among this very batch's writes. -/
def GoodTail (da : Bool) (sp backedUp : Nat) (tail : List BakEvent) : Prop :=
  tail = [] ∨
  ∃ bc ws cm,
    tail = BakEvent.batchRead backedUp
      (backupCurrentStart da sp backedUp) bc :: (ws ++ cm) ∧
    bc ≤ backupBatchSize ∧
    (∀ e ∈ ws, ∃ k i m, e = BakEvent.zipWrite k i m) ∧
    (cm = [] ∨ ∃ mids, cm = [BakEvent.commit mids] ∧
      ∀ m ∈ mids, ∃ k i, BakEvent.zipWrite k i m ∈ ws)

/-- Every iteration of the backup loop extends the event log by a
`GoodTail`: archive writes precede the batch's commit, read cursors follow
the cursor rule, and batches are capped at `backupBatchSize`. -/
theorem bakStep_events (o : BakOracle) (da : Bool) (sp : Nat)
    (s : BakState) :
    ∃ tail, (stepState (bakStep o da sp s)).events = s.events ++ tail ∧
      GoodTail da sp s.backedUp tail := by
  by_cases hc : o.connectOk s.iter = false
  · by_cases hm : max_failures ≤ s.consecutiveFailures + 1
    · refine ⟨[], ?_, Or.inl rfl⟩
      rw [bakStep, if_pos hc, if_pos hm]
      simp [stepState]
    · refine ⟨[], ?_, Or.inl rfl⟩
      rw [bakStep, if_pos hc, if_neg hm]
      simp [stepState]
  · by_cases hst : o.statOk s.iter = false
    · refine ⟨[], ?_, Or.inl rfl⟩
      rw [bakStep, if_neg hc, if_pos hst]
      simp [stepState]
    · simp only [bakStep]
      rw [if_neg hc, if_neg hst]
      set cs := backupCurrentStart da sp s.backedUp with hcs
      set bc := bakBatchCount da sp s with hbc
      set d := bakDownload o da sp s with hd
      have hbc50 : bc ≤ backupBatchSize := by
        rw [hbc, bakBatchCount]
        exact le_trans (Nat.min_le_left _ _) (Nat.min_le_left _ _)
      by_cases hno : s.mailbox.length < cs
      · refine ⟨[], ?_, Or.inl rfl⟩
        rw [if_pos hno]
        simp [stepState]
      · rw [if_neg hno]
        by_cases hcf : max_failures ≤ d.cf
        · refine ⟨[BakEvent.batchRead s.backedUp cs bc], ?_, ?_⟩
          · rw [if_pos hcf]
            simp [stepState]
          · exact Or.inr ⟨bc, [], [], by simp, hbc50, by simp, Or.inl rfl⟩
        · rw [if_neg hcf]
          by_cases hda : da ∧ d.msgNums ≠ []
          · rw [if_pos hda]
            by_cases hco : o.commitOk s.iter = true
            · rw [if_pos hco]
              refine ⟨BakEvent.batchRead s.backedUp cs bc ::
                ((d.emails.map fun e : (Nat × Nat) × Nat × Nat =>
                  BakEvent.zipWrite e.1 e.2.1 e.2.2) ++
                [BakEvent.commit
                  ((d.msgNums.filter fun p => o.deleOk s.iter p).map
                    fun p => (s.mailbox.getD (p - 1) ⟨0, none⟩).mid)]),
                ?_, ?_⟩
              · simp [stepState, List.append_assoc]
              · refine Or.inr ⟨bc, _, _, rfl, hbc50, ?_, Or.inr ⟨_, rfl, ?_⟩⟩
                · intro e he
                  simp only [List.mem_map] at he
                  obtain ⟨a, _, hae⟩ := he
                  exact ⟨_, _, _, hae.symm⟩
                · intro m hm'
                  simp only [List.mem_map] at hm'
                  obtain ⟨p, hpf, hpm⟩ := hm'
                  have hp : p ∈ d.msgNums := List.mem_of_mem_filter hpf
                  obtain ⟨k, i, hk⟩ := bakDownload_msgNums_covered o da sp s
                    p (by rw [hd] at hp; exact hp)
                  rw [← hd] at hk
                  subst hpm
                  exact ⟨k, i, List.mem_map.mpr ⟨(k, i, _), hk, rfl⟩⟩
            · rw [if_neg hco]
              refine ⟨BakEvent.batchRead s.backedUp cs bc ::
                (d.emails.map fun e : (Nat × Nat) × Nat × Nat =>
                  BakEvent.zipWrite e.1 e.2.1 e.2.2), ?_, ?_⟩
              · simp [stepState, List.append_assoc]
              · refine Or.inr ⟨bc,
                  d.emails.map fun e : (Nat × Nat) × Nat × Nat =>
                    BakEvent.zipWrite e.1 e.2.1 e.2.2,
                  [], by simp, hbc50, ?_, Or.inl rfl⟩
                intro e he
                simp only [List.mem_map] at he
                obtain ⟨a, _, hae⟩ := he
                exact ⟨_, _, _, hae.symm⟩
          · rw [if_neg hda]
            refine ⟨BakEvent.batchRead s.backedUp cs bc ::
              (d.emails.map fun e : (Nat × Nat) × Nat × Nat =>
                BakEvent.zipWrite e.1 e.2.1 e.2.2), ?_, ?_⟩
            · simp [stepState, List.append_assoc]
            · refine Or.inr ⟨bc,
                d.emails.map fun e : (Nat × Nat) × Nat × Nat =>
                  BakEvent.zipWrite e.1 e.2.1 e.2.2,
                [], by simp, hbc50, ?_, Or.inl rfl⟩
              intro e he
              simp only [List.mem_map] at he
              obtain ⟨a, _, hae⟩ := he
              exact ⟨_, _, _, hae.symm⟩

/-- All batch-read events in a list obey the read-cursor rule. -/
def readsFollowCursor (da : Bool) (sp : Nat) (evs : List BakEvent) : Prop :=
  ∀ b st c, BakEvent.batchRead b st c ∈ evs →
    st = backupCurrentStart da sp b

/-- A `GoodTail` contains only batch reads obeying the cursor rule. -/
theorem goodTail_reads (da : Bool) (sp b : Nat) (tail : List BakEvent)
    (h : GoodTail da sp b tail) :
    ∀ b' st c, BakEvent.batchRead b' st c ∈ tail →
      st = backupCurrentStart da sp b' := by
  rcases h with rfl | ⟨bc, ws, cm, rfl, _, hws, hcm⟩
  · intro b' st c hmem
    simp at hmem
  · intro b' st c hmem
    simp only [List.mem_cons, List.mem_append] at hmem
    rcases hmem with h | h | h
    · injection h with h1 h2 h3
      subst h1; subst h2
      rfl
    · obtain ⟨k, i, m, he⟩ := hws _ h
      cases he
    · rcases hcm with rfl | ⟨mids, rfl, _⟩
      · simp at h
      · simp only [List.mem_singleton] at h
        cases h

/-- The backup loop preserves the cursor rule over its event log. -/
theorem bakRun_reads (o : BakOracle) (da : Bool) (sp : Nat) :
    ∀ fuel s, readsFollowCursor da sp s.events →
      readsFollowCursor da sp (bakRun o da sp fuel s).2.events := by
  intro fuel
  induction fuel with
  | zero => intro s h; exact h
  | succ fuel ih =>
    intro s h
    rw [bakRun]
    by_cases hr : s.remaining = 0
    · rw [if_pos hr]; exact h
    · rw [if_neg hr]
      obtain ⟨tail, hev, hgood⟩ := bakStep_events o da sp s
      cases hstep : bakStep o da sp s with
      | inl s' =>
        rw [hstep] at hev
        simp only [stepState] at hev
        refine ih s' ?_
        intro b st c hmem
        rw [hev] at hmem
        rcases List.mem_append.mp hmem with hmem | hmem
        · exact h b st c hmem
        · exact goodTail_reads da sp s.backedUp tail hgood b st c hmem
      | inr r =>
        obtain ⟨t, s'⟩ := r
        rw [hstep] at hev
        simp only [stepState] at hev
        intro b st c hmem
        simp only at hmem ⊢
        rw [hev] at hmem
        rcases List.mem_append.mp hmem with hmem | hmem
        · exact h b st c hmem
        · exact goodTail_reads da sp s.backedUp tail hgood b st c hmem

/-- C7: in `backup_emails_to_zip` the position at which a batch's reads
begin is the range's fixed `start_pos` whenever `delete_after` is true
(regardless of how much has been backed up), and `start_pos + backed_up`
(advancing with the running backed-up count) whenever `delete_after` is
false. -/
theorem claim_C7_read_cursor (fuel : Nat) (o : BakOracle)
    (mailbox0 : List Msg) (sp ep : Nat) (da : Bool) (b st c : Nat)
    (h : BakEvent.batchRead b st c ∈
      (backup_emails_to_zip fuel o mailbox0 sp ep da).2.events) :
    st = if da then sp else sp + b := by
  have := bakRun_reads o da sp fuel
    { mailbox := mailbox0, backedUp := 0, deleted := 0,
      consecutiveFailures := 0, remaining := ep + 1 - sp,
      iter := 0, events := [] }
    (by intro b st c hmem; simp at hmem)
  exact this b st c h

/-- Witness for C7: the all-success backup-only run over a 3-message
mailbox starts its batch read at position `1 = start_pos + 0`. -/
theorem claim_C7_witness :
    BakEvent.batchRead 0 1 3 ∈
      (backup_emails_to_zip 5 bakAllOk mbox3 1 3 false).2.events ∧
    (1 : Nat) = if false then 1 else 1 + 0 :=
  ⟨by decide,
    claim_C7_read_cursor 5 bakAllOk mbox3 1 3 false 0 1 3 (by decide)⟩

/-- In `evs`, every identity listed in any commit event has an archive
write at a strictly earlier position of the log: its zip write completed
before that deletion commit was attempted. -/
def archiveBeforeCommit (evs : List BakEvent) : Prop :=
  ∀ i mids m, evs.get? i = some (BakEvent.commit mids) → m ∈ mids →
    ∃ j k idx, j < i ∧ evs.get? j = some (BakEvent.zipWrite k idx m)

/-- Appending a log extension whose commits are internally covered by its
own earlier writes preserves `archiveBeforeCommit`. -/
theorem archiveBeforeCommit_append (evs tail : List BakEvent)
    (h1 : archiveBeforeCommit evs)
    (h2 : ∀ i mids m, tail.get? i = some (BakEvent.commit mids) →
      m ∈ mids → ∃ j k idx, j < i ∧
        tail.get? j = some (BakEvent.zipWrite k idx m)) :
    archiveBeforeCommit (evs ++ tail) := by
  intro i mids m hi hm
  by_cases hlen : i < evs.length
  · rw [List.get?_append hlen] at hi
    obtain ⟨j, k, idx, hj, hjw⟩ := h1 i mids m hi hm
    refine ⟨j, k, idx, hj, ?_⟩
    rw [List.get?_append (lt_trans hj hlen)]
    exact hjw
  · rw [List.get?_append_right (le_of_not_lt hlen)] at hi
    obtain ⟨j, k, idx, hj, hjw⟩ := h2 _ mids m hi hm
    refine ⟨evs.length + j, k, idx, by omega, ?_⟩
    rw [List.get?_append_right (by omega)]
    simpa using hjw

/-- A `GoodTail` is internally covered: its only possible commit event
follows all of the batch's writes, and each committed identity has one of
those writes. -/
theorem goodTail_archive (da : Bool) (sp b : Nat) (tail : List BakEvent)
    (h : GoodTail da sp b tail) :
    ∀ i mids m, tail.get? i = some (BakEvent.commit mids) → m ∈ mids →
      ∃ j k idx, j < i ∧
        tail.get? j = some (BakEvent.zipWrite k idx m) := by
  rcases h with rfl | ⟨bc, ws, cm, rfl, _, hws, hcm⟩
  · intro i mids m hi
    simp at hi
  · intro i mids m hi hm
    cases i with
    | zero =>
      rw [List.get?_cons_zero] at hi
      cases hi
    | succ i' =>
      rw [List.get?_cons_succ] at hi
      by_cases hiw : i' < ws.length
      · rw [List.get?_append hiw] at hi
        obtain ⟨k, idx, m', he⟩ := hws _ (List.get?_mem hi)
        cases he
      · rw [List.get?_append_right (le_of_not_lt hiw)] at hi
        rcases hcm with rfl | ⟨mids', rfl, hcov⟩
        · simp at hi
        · have hidx : i' - ws.length = 0 := by
            by_contra hne
            rw [List.get?_eq_none.mpr (by simp; omega)] at hi
            cases hi
          rw [hidx, List.get?_cons_zero] at hi
          injection hi with hi
          injection hi with hi
          subst hi
          obtain ⟨k, idx, hkw⟩ := hcov m hm
          obtain ⟨j, hj⟩ := List.get?_of_mem hkw
          have hjlen : j < ws.length := (List.get?_eq_some.mp hj).1
          refine ⟨j + 1, k, idx, by omega, ?_⟩
          rw [List.get?_cons_succ, List.get?_append hjlen]
          exact hj

/-- The backup loop preserves `archiveBeforeCommit` over its event log. -/
theorem bakRun_archive (o : BakOracle) (da : Bool) (sp : Nat) :
    ∀ fuel s, archiveBeforeCommit s.events →
      archiveBeforeCommit (bakRun o da sp fuel s).2.events := by
  intro fuel
  induction fuel with
  | zero => intro s h; exact h
  | succ fuel ih =>
    intro s h
    rw [bakRun]
    by_cases hr : s.remaining = 0
    · rw [if_pos hr]; exact h
    · rw [if_neg hr]
      obtain ⟨tail, hev, hgood⟩ := bakStep_events o da sp s
      cases hstep : bakStep o da sp s with
      | inl s' =>
        rw [hstep] at hev
        simp only [stepState] at hev
        refine ih s' ?_
        rw [hev]
        exact archiveBeforeCommit_append s.events tail h
          (goodTail_archive da sp s.backedUp tail hgood)
      | inr r =>
        obtain ⟨t, s'⟩ := r
        rw [hstep] at hev
        simp only [stepState] at hev
        simp only
        rw [hev]
        exact archiveBeforeCommit_append s.events tail h
          (goodTail_archive da sp s.backedUp tail hgood)

/-- C2 (amended): in a backup-then-delete run, every message whose
deletion is committed appears in at least one archive entry whose zip
write completed before that commit was attempted; a batch whose commit
fails is retried and archived again, so such a message may appear in more
than one entry (the duplicates are never retracted). -/
theorem claim_C2_archive_before_commit (fuel : Nat) (o : BakOracle)
    (mailbox0 : List Msg) (sp ep : Nat) (da : Bool) :
    archiveBeforeCommit
      ((backup_emails_to_zip fuel o mailbox0 sp ep da).2.events) := by
  refine bakRun_archive o da sp fuel _ ?_
  intro i mids m hi
  simp at hi

/-- Oracle whose first commit attempt fails and whose later ones succeed;
every other operation succeeds. -/
def bakCommitFailOnce : BakOracle :=
  ⟨fun _ => true, fun _ => true, fun _ _ => true, fun _ _ => true,
    fun i => i != 0⟩

/-- Counterexample to C2 as stated: when the first batch's commit fails,
the retried batch re-downloads and re-archives message 7, so its deletion
is committed but it appears in two archive entries (same bundle, same
entry name), not exactly one. -/
theorem claim_C2_counterexample :
    BakEvent.commit [7] ∈
      (backup_emails_to_zip 5 bakCommitFailOnce [⟨7, some (2020, 1)⟩] 1 1
        true).2.events ∧
    (backup_emails_to_zip 5 bakCommitFailOnce [⟨7, some (2020, 1)⟩] 1 1
        true).2.events.count (BakEvent.zipWrite (2020, 1) 1 7) = 2 ∧
    (backup_emails_to_zip 5 bakCommitFailOnce [⟨7, some (2020, 1)⟩] 1 1
        true).2.deleted = 1 := by decide

/-- Witness for C2 (amended) at the concrete one-failing-commit run. -/
theorem claim_C2_witness :
    archiveBeforeCommit
      ((backup_emails_to_zip 5 bakCommitFailOnce [⟨7, some (2020, 1)⟩] 1 1
        true).2.events) :=
  claim_C2_archive_before_commit 5 bakCommitFailOnce [⟨7, some (2020, 1)⟩]
    1 1 true

/-- C6: in combined backup+delete mode, when a batch's commit fails,
`backup_emails_to_zip` decrements `backed_up` and increments `remaining`
by exactly that batch's size (restoring their pre-batch values), keeps the
already-written zip entries (the log only grows: the batch's read and
writes stay appended), leaves the mailbox and `deleted` unchanged, and the
next iteration retries the same batch: same fixed start position and same
batch bounds. -/
theorem claim_C6_commit_rollback (o : BakOracle) (sp : Nat)
    (s s' : BakState)
    (hc : o.connectOk s.iter = true) (hst : o.statOk s.iter = true)
    (hno : ¬ s.mailbox.length < backupCurrentStart true sp s.backedUp)
    (hcf : ¬ max_failures ≤ (bakDownload o true sp s).cf)
    (hne : (bakDownload o true sp s).msgNums ≠ [])
    (hco : o.commitOk s.iter = false)
    (h : bakStep o true sp s = Sum.inl s') :
    s'.backedUp = s.backedUp ∧
    s'.remaining = s.remaining ∧
    s'.mailbox = s.mailbox ∧
    s'.deleted = s.deleted ∧
    s'.events = s.events ++
      [BakEvent.batchRead s.backedUp
        (backupCurrentStart true sp s.backedUp) (bakBatchCount true sp s)] ++
      ((bakDownload o true sp s).emails.map
        fun e : (Nat × Nat) × Nat × Nat =>
          BakEvent.zipWrite e.1 e.2.1 e.2.2) ∧
    backupCurrentStart true sp s'.backedUp =
      backupCurrentStart true sp s.backedUp ∧
    bakBatchCount true sp s' = bakBatchCount true sp s := by
  have hlen : (bakDownload o true sp s).emails.length ≤ s.remaining := by
    have h1 := downloadBatch_emails_len o s.iter s.mailbox s.backedUp
      (List.range' (backupCurrentStart true sp s.backedUp)
        (bakBatchCount true sp s)) ⟨[], [], s.consecutiveFailures⟩
    have h2 : bakBatchCount true sp s ≤ s.remaining := by
      rw [bakBatchCount]
      exact le_trans (Nat.min_le_left _ _) (Nat.min_le_right _ _)
    rw [show downloadBatch o s.iter s.mailbox s.backedUp
      (List.range' (backupCurrentStart true sp s.backedUp)
        (bakBatchCount true sp s))
      ⟨[], [], s.consecutiveFailures⟩ = bakDownload o true sp s from rfl]
      at h1
    simp only [List.length_range', List.length_nil] at h1
    omega
  have hc' : ¬ o.connectOk s.iter = false := by simp [hc]
  have hst' : ¬ o.statOk s.iter = false := by simp [hst]
  have hda : True ∧ (bakDownload o true sp s).msgNums ≠ [] :=
    ⟨trivial, hne⟩
  simp only [bakStep] at h
  rw [if_neg hc', if_neg hst', if_neg hno, if_neg hcf, if_pos hda,
    if_neg (by simp [hco])] at h
  injection h with h
  subst h
  have hrem : s.remaining - (bakDownload o true sp s).emails.length +
      (bakDownload o true sp s).emails.length = s.remaining := by omega
  refine ⟨by simp, by simpa using hrem, rfl, rfl, rfl, rfl, ?_⟩
  simp only [bakBatchCount, backupCurrentStart]
  simp [hrem]

/-- Concrete pre-batch state for the C6 witness: one message, one
remaining, fresh counters. -/
def bakC6start : BakState :=
  ⟨[⟨7, some (2020, 1)⟩], 0, 0, 0, 1, 0, []⟩

/-- Concrete post-rollback state for the C6 witness: counters restored,
one consecutive failure, batch read and archive write kept in the log. -/
def bakC6after : BakState :=
  ⟨[⟨7, some (2020, 1)⟩], 0, 0, 1, 1, 1,
    [BakEvent.batchRead 0 1 1, BakEvent.zipWrite (2020, 1) 1 7]⟩

/-- Witness for C6 at the concrete one-failing-commit step. -/
theorem claim_C6_witness :
    bakC6after.backedUp = bakC6start.backedUp ∧
    bakC6after.remaining = bakC6start.remaining ∧
    bakC6after.mailbox = bakC6start.mailbox ∧
    bakC6after.deleted = bakC6start.deleted ∧
    bakC6after.events = bakC6start.events ++
      [BakEvent.batchRead bakC6start.backedUp
        (backupCurrentStart true 1 bakC6start.backedUp)
        (bakBatchCount true 1 bakC6start)] ++
      ((bakDownload bakCommitFailOnce true 1 bakC6start).emails.map
        fun e : (Nat × Nat) × Nat × Nat =>
          BakEvent.zipWrite e.1 e.2.1 e.2.2) ∧
    backupCurrentStart true 1 bakC6after.backedUp =
      backupCurrentStart true 1 bakC6start.backedUp ∧
    bakBatchCount true 1 bakC6after = bakBatchCount true 1 bakC6start :=
  claim_C6_commit_rollback bakCommitFailOnce 1 bakC6start bakC6after
    (by decide) (by decide) (by decide) (by decide) (by decide) (by decide)
    (by decide)

/-- C10: the effective per-batch size never exceeds 50 in either engine:
`delete_messages_robust` clamps the configured `BATCH_SIZE` to
`min(BATCH_SIZE, 50)` and each of its batches (and the messages it marks)
stays within 50; `backup_emails_to_zip` ignores the configured
`BATCH_SIZE` entirely, uses the hard-coded 50, and each of its batches
(and the messages it downloads) stays within 50. -/
theorem claim_C10_batch_cap (cfgBatchSize target startPosition : Nat)
    (s : DelState) (o : DelOracle) (oB : BakOracle) (da : Bool) (sp : Nat)
    (sB : BakState) :
    delete_batch_size cfgBatchSize = min cfgBatchSize 50 ∧
    backupBatchSize = 50 ∧
    delBatchCount cfgBatchSize target startPosition s ≤ 50 ∧
    (markLoop o s.iter startPosition
      (delBatchCount cfgBatchSize target startPosition s)).1 ≤ 50 ∧
    bakBatchCount da sp sB ≤ 50 ∧
    (bakDownload oB da sp sB).emails.length ≤ 50 := by
  have hdel : delBatchCount cfgBatchSize target startPosition s ≤ 50 := by
    rw [delBatchCount, delete_batch_size]
    exact le_trans (le_trans (Nat.min_le_left _ _) (Nat.min_le_left _ _))
      (Nat.min_le_right _ _)
  have hbak : bakBatchCount da sp sB ≤ 50 := by
    rw [bakBatchCount]
    exact le_trans (Nat.min_le_left _ _) (Nat.min_le_left _ _)
  refine ⟨rfl, rfl, hdel, le_trans (markLoop_le o s.iter startPosition _)
    hdel, hbak, ?_⟩
  have h1 := downloadBatch_emails_len oB sB.iter sB.mailbox sB.backedUp
    (List.range' (backupCurrentStart da sp sB.backedUp)
      (bakBatchCount da sp sB)) ⟨[], [], sB.consecutiveFailures⟩
  rw [show downloadBatch oB sB.iter sB.mailbox sB.backedUp
    (List.range' (backupCurrentStart da sp sB.backedUp)
      (bakBatchCount da sp sB))
    ⟨[], [], sB.consecutiveFailures⟩ = bakDownload oB da sp sB from rfl]
    at h1
  simp only [List.length_range', List.length_nil] at h1
  omega

end TeraByeBye
